import Mathlib

/-!
Shallow embedding of the AWSOM-LP log parser (package `awsomlp`,
file awsom-lp.go plus the pattern tables of the repository) in Lean 4,
together with theorems settling the frozen claims about its specification.

Modelling conventions:
* Go strings are modelled by `String` viewed as its list of characters
  (`String.data`); Go's byte-based `len` is modelled by character length,
  which agrees on ASCII data.
* Go `float64` similarity/ratio arithmetic is modelled by exact rationals
  (`ℚ`); integer division stays on `Nat`/`Int`.
* `unicode.IsLetter` is modelled by `Char.isAlpha` (the ASCII letters); the
  regexp class `\s` is modelled by Go's regexp space class.
* Go maps are modelled by association lists: `Pattern.Frequency` keyed by
  token, and the result of `Parse` keyed by `event.Raw` with
  overwrite-on-insert semantics (`upsert`).
* Pointer identity of `*LogEvent` (used by the Go code to propagate the
  final template to every event of a pattern) is modelled by an index
  field `idx` stamped from the input position.
* The external preprocessing collaborators (header stripping and trivial
  variable substitution, §1 of the spec: `stripHeader` and
  `substituteKnownVariables`) are a parameter `pre : String → String` of
  the pipeline; the post-synthesis numeric cleanup table
  (`numericalPatterns`) is embedded concretely, with a small regular
  expression evaluator sufficient for those thirty patterns.
-/

set_option maxRecDepth 8000

/- The rational arithmetic of the standard library is marked irreducible,
which blocks evaluation of the embedded similarity and ratio computations
inside `decide`; restore the default reducibility (kernel checking is
unaffected). -/
set_option allowUnsafeReducibility true
attribute [semireducible] Rat.add Rat.mul Rat.div Rat.inv Rat.sub Rat.neg

namespace AwsomLP

/-! ### Basic string utilities (strings.TrimSpace, strings.Fields) -/

/-- Go's regexp / `unicode.IsSpace` white space on the characters that occur
in log lines: space, tab, newline, form feed, carriage return. -/
def isWS (c : Char) : Bool :=
  c = ' ' || c = '\t' || c = '\n' || c = '\x0c' || c = '\r'

/-- The strings.TrimSpace computation on the character list: drop leading
and trailing white space. -/
def trimList (l : List Char) : List Char :=
  ((l.dropWhile isWS).reverse.dropWhile isWS).reverse

/-- Go strings.TrimSpace. -/
def trimSpace (s : String) : String :=
  String.mk (trimList s.data)

/-- Go strings.Fields: split on white space, dropping empty fields. -/
def fields (s : String) : List String :=
  ((s.data.splitOnP isWS).filter (fun l => l ≠ [])).map String.mk

/-- The placeholder marker `<*>`. -/
def placeholder : String := "<*>"

/-! ### Configuration (struct Config, awsom-lp.go) -/

/-- Strategy for sorting events in patterns (type SortingStrategy). -/
inductive SortingStrategy where
  | sortNone
  | sortByLength
  | sortLexical
  | sortByDynTokens
deriving DecidableEq

/-- Strategy for the frequency threshold (type FreqThresholdStrategy). -/
inductive FreqThresholdStrategy where
  | freqMin
  | freqMedian
  | freqPercentile
  | freqAll
deriving DecidableEq

/-- Configuration parameters (struct Config).  Field names follow the Go
source; `MaxPlaceholderShare` embeds the Go field MaxPlaceholderRatio (the
maximum ratio of placeholder tokens to total tokens).  `MinGroupSize` and
`MinTemplateTokens` are Go `int`s, hence `ℤ`. -/
structure Config where
  MinSimilarity : ℚ
  SortingStrategy : AwsomLP.SortingStrategy
  CustomRegexes : List String
  HeaderRegex : String
  MinGroupSize : ℤ
  MaxPlaceholderShare : ℚ
  MinTemplateTokens : ℤ
  FreqThresholdStrategy : AwsomLP.FreqThresholdStrategy
  FreqPercentile : ℚ
  StrictAlphabeticalMatching : Bool
  ApplyFreqAnalysisToSmallGroups : Bool
deriving DecidableEq

/-- The universal header pattern (const DefaultHeaderRegex): its text only
matters as an opaque handle to the configuration model. -/
def DefaultHeaderRegex : String :=
  "^(?:\\d{4}-\\d{2}-\\d{2}[T\\s]\\d{2}:\\d{2}:\\d{2}(?:\\.\\d+)?(?:[+-]\\d{2}:\\d{2}|Z)?[,:]\\s*)?(.+)$"

/-- DefaultConfig(). -/
def defaultConfig : Config where
  MinSimilarity := 1
  SortingStrategy := .sortNone
  CustomRegexes := []
  HeaderRegex := DefaultHeaderRegex
  MinGroupSize := 1
  MaxPlaceholderShare := 9 / 10
  MinTemplateTokens := 1
  FreqThresholdStrategy := .freqMin
  FreqPercentile := 1 / 2
  StrictAlphabeticalMatching := false
  ApplyFreqAnalysisToSmallGroups := true

/-! ### Events (struct LogEvent) and preprocessing -/

/-- A processed log event (struct LogEvent).  `idx` models the pointer
identity of the Go `*LogEvent` (stamped from the input position); the
mutable `Template` field of the Go struct is recovered from the pattern an
event belongs to (`eventTemplate` below). -/
structure LogEvent where
  idx : Nat
  Raw : String
  Content : String
  Tokens : List String
deriving DecidableEq

instance : Inhabited LogEvent := ⟨⟨0, "", "", []⟩⟩

/-- Preprocess: header removal and trivial variable replacement are the
external collaborator `pre` (spec §1); then tokenize with strings.Fields. -/
def Preprocess (pre : String → String) (idx : Nat) (logLine : String) : LogEvent :=
  let content := pre logLine
  { idx := idx, Raw := logLine, Content := content, Tokens := fields content }

/-! ### Similarity (calculateSimilarity and helpers) -/

/-- isAlphabeticalToken: no character other than letters, not the
placeholder, non-empty. -/
def isAlphabeticalToken (token : String) : Bool :=
  decide (token ≠ placeholder) && token.data.all (fun c => c.isAlpha)
    && !token.data.isEmpty

/-- countAlphabeticalLetters: total number of letters over the alphabetical
tokens of an event. -/
def countAlphabeticalLetters (event : LogEvent) : Nat :=
  event.Tokens.foldl
    (fun acc token =>
      if isAlphabeticalToken token then acc + token.data.countP (fun c => c.isAlpha)
      else acc)
    0

/-- getAlphabeticalTokens. -/
def getAlphabeticalTokens (event : LogEvent) : List String :=
  event.Tokens.filter (fun token => isAlphabeticalToken token)

/-- alphabeticalTokensMatch: same length and identical tokens at each
position. -/
def alphabeticalTokensMatch (tokens1 tokens2 : List String) : Bool :=
  if tokens1.length ≠ tokens2.length then false
  else (tokens1.zip tokens2).all (fun p => p.1 = p.2)

/-- calculateSimilarity: 0 if either event has no alphabetical letters;
with strict alphabetical matching, 0 when the alphabetical token sequences
differ; otherwise the smaller letter count over the larger (the Go code
computes min and max by a conditional swap). -/
def calculateSimilarity (cfg : Config) (event1 event2 : LogEvent) : ℚ :=
  let count1 := countAlphabeticalLetters event1
  let count2 := countAlphabeticalLetters event2
  if count1 = 0 ∨ count2 = 0 then 0
  else if cfg.StrictAlphabeticalMatching
      && !alphabeticalTokensMatch (getAlphabeticalTokens event1) (getAlphabeticalTokens event2) then 0
  else (min count1 count2 : ℚ) / (max count1 count2 : ℚ)

/-! ### Patterns and pattern recognition -/

/-- A group of similar log events (struct Pattern).  `Frequency` is the
token frequency map as an association list. -/
structure Pattern where
  ID : Nat
  Events : List LogEvent
  Template : String
  Frequency : List (String × Nat)
deriving DecidableEq

instance : Inhabited Pattern := ⟨⟨0, [], "", []⟩⟩

/-- One probe of the scan loop of patternRecognition: patterns without
events are skipped; otherwise the event is compared with the first event of
the pattern, and matches when similarity ≥ MinSimilarity (inclusive). -/
def matchesPattern (cfg : Config) (event : LogEvent) (p : Pattern) : Bool :=
  match p.Events with
  | [] => false
  | e0 :: _ => decide (cfg.MinSimilarity ≤ calculateSimilarity cfg event e0)

/-- The scan over existing patterns: the first matching pattern receives the
event; `none` when no pattern matches. -/
def tryAssign (cfg : Config) (event : LogEvent) : List Pattern → Option (List Pattern)
  | [] => none
  | p :: rest =>
    if matchesPattern cfg event p then
      some ({ p with Events := p.Events ++ [event] } :: rest)
    else
      (tryAssign cfg event rest).map (fun ps => p :: ps)

/-- Processing of one event by patternRecognition: assign to the first
matching pattern, or create a new pattern whose ID is the current pattern
count. -/
def assignEvent (cfg : Config) (ps : List Pattern) (event : LogEvent) : List Pattern :=
  match tryAssign cfg event ps with
  | some ps2 => ps2
  | none => ps ++ [{ ID := ps.length, Events := [event], Template := "", Frequency := [] }]

/-- patternRecognition: events are processed in input order. -/
def patternRecognition (cfg : Config) (ps : List Pattern) (events : List LogEvent) : List Pattern :=
  events.foldl (assignEvent cfg) ps

/-! ### Deterministic sorting of the events of a pattern -/

/-- The comparison of sortByLength: ascending token count, ties broken by
content. -/
def lessByLength (a b : LogEvent) : Bool :=
  if a.Tokens.length ≠ b.Tokens.length then a.Tokens.length < b.Tokens.length
  else a.Content < b.Content

/-- The comparison of sortLexically: ascending content, ties broken by raw
string. -/
def lessLexical (a b : LogEvent) : Bool :=
  if a.Content ≠ b.Content then a.Content < b.Content
  else a.Raw < b.Raw

/-- Number of dynamic (non-alphabetical) tokens of an event, as counted by
sortByDynamicTokenCount. -/
def countDynamicTokens (event : LogEvent) : Nat :=
  event.Tokens.countP (fun token => !isAlphabeticalToken token)

/-- The comparison of sortByDynamicTokenCount: ascending dynamic token
count, ties broken by content. -/
def lessByDynTokens (a b : LogEvent) : Bool :=
  if countDynamicTokens a ≠ countDynamicTokens b then countDynamicTokens a < countDynamicTokens b
  else a.Content < b.Content

/-- sortEventsInPattern: sort under the configured strategy (the Go code
uses sort.Slice with the strict comparisons above; the model sorts by the
induced total preorder). -/
def sortEventsInPattern (cfg : Config) (events : List LogEvent) : List LogEvent :=
  match cfg.SortingStrategy with
  | .sortByLength => events.mergeSort (fun a b => !lessByLength b a)
  | .sortLexical => events.mergeSort (fun a b => !lessLexical b a)
  | .sortByDynTokens => events.mergeSort (fun a b => !lessByDynTokens b a)
  | .sortNone => events

/-! ### Frequency analysis -/

/-- chooseFreqThreshold: the frequency threshold under the configured
strategy, from the pattern's token frequency map (here as the association
list `frequency`) and the group size. -/
def chooseFreqThreshold (cfg : Config) (frequency : List (String × Nat)) (groupSize : Nat) : Nat :=
  match cfg.FreqThresholdStrategy with
  | .freqMin =>
    if frequency = [] then 1
    else frequency.foldl (fun m kv => if kv.2 < m then kv.2 else m) groupSize
  | .freqMedian =>
    if frequency = [] then 1
    else
      let fs := (frequency.map (fun kv => kv.2)).mergeSort (fun a b => a ≤ b)
      let mid := fs.length / 2
      if fs.length % 2 = 0 then (fs.getD (mid - 1) 0 + fs.getD mid 0) / 2
      else fs.getD mid 0
  | .freqPercentile =>
    if frequency = [] then 1
    else
      let fs := (frequency.map (fun kv => kv.2)).mergeSort (fun a b => a ≤ b)
      let idx := (⌊((fs.length - 1 : ℕ) : ℚ) * cfg.FreqPercentile⌋).toNat
      fs.getD idx 0
  | .freqAll => groupSize

/-- One `frequency[token]++` of the counting loop, on the association
list. -/
def bump (m : List (String × Nat)) (token : String) : List (String × Nat) :=
  if m.any (fun kv => kv.1 = token) then
    m.map (fun kv => if kv.1 = token then (kv.1, kv.2 + 1) else kv)
  else m ++ [(token, 1)]

/-- The frequency counting loop of frequencyAnalysis: occurrences of every
token over all events of the pattern. -/
def countFrequency (events : List LogEvent) : List (String × Nat) :=
  events.foldl (fun m e => e.Tokens.foldl bump m) []

/-- generateTemplate: walk the representative event's tokens; placeholders
are copied, a token at least as frequent as the threshold stays, any other
token becomes the placeholder. -/
def generateTemplate (event : LogEvent) (frequency : List (String × Nat))
    (freqThreshold : Nat) : String :=
  String.intercalate " "
    (event.Tokens.map (fun token =>
      if token = placeholder then token
      else if freqThreshold ≤ ((frequency.lookup token).getD 0) then token
      else placeholder))

/-- hasExcessivePlaceholders: the ratio of placeholder tokens to total
tokens exceeds the configured maximum (false on an empty token list). -/
def hasExcessivePlaceholders (cfg : Config) (template : String) : Bool :=
  let tokens := fields template
  if tokens = [] then false
  else
    decide (cfg.MaxPlaceholderShare
      < ((tokens.countP (fun t => t = placeholder)) : ℚ) / (tokens.length : ℚ))

/-- The body of the frequencyAnalysis loop for one pattern: small groups
(when small-group analysis is disabled) take the representative's content
verbatim; otherwise count frequencies, synthesize a template and apply the
placeholder guard. -/
def frequencyAnalysisStep (cfg : Config) (p : Pattern) : Pattern :=
  if p.Events = [] then p
  else if (p.Events.length : ℤ) < cfg.MinGroupSize
      && !cfg.ApplyFreqAnalysisToSmallGroups then
    let evs := if cfg.SortingStrategy ≠ .sortNone then sortEventsInPattern cfg p.Events else p.Events
    { p with Events := evs, Template := (evs.headD default).Content }
  else
    let evs := if cfg.SortingStrategy ≠ .sortNone then sortEventsInPattern cfg p.Events else p.Events
    let freq := countFrequency evs
    let freqThreshold := chooseFreqThreshold cfg freq evs.length
    let template0 := generateTemplate (evs.headD default) freq freqThreshold
    let template := if hasExcessivePlaceholders cfg template0 then (evs.headD default).Content
      else template0
    { p with Events := evs, Frequency := freq, Template := template }

/-- frequencyAnalysis over all patterns. -/
def frequencyAnalysis (cfg : Config) (ps : List Pattern) : List Pattern :=
  ps.map (frequencyAnalysisStep cfg)

/-- The Template field the Go code propagates to every event of a pattern:
the template of the (first) pattern containing the event. -/
def eventTemplate (ps : List Pattern) (event : LogEvent) : String :=
  match ps.find? (fun p => p.Events.any (fun e2 => e2.idx = event.idx)) with
  | some p => p.Template
  | none => ""

/-! ### The numeric cleanup pass (replaceRemainingNumericalVariables and
the table numericalPatterns)

The thirty numerical patterns are concatenations of character classes with
the quantifiers `+` and `?` and the anchors `^`/`$`; adjacent items always
draw from disjoint classes, so greedy matching without backtracking
computes exactly the RE2 leftmost match. -/

/-- The character classes occurring in the numerical patterns. -/
inductive CClass where
  | ws
  | digit
  | hexd
  | alpha
  | ee
  | sign
  | xX
  | chr (c : Char)

/-- Membership in a character class. -/
def CClass.test : CClass → Char → Bool
  | .ws, c => isWS c
  | .digit, c => c.isDigit
  | .hexd, c => c.isDigit || ('a' ≤ c && c ≤ 'f') || ('A' ≤ c && c ≤ 'F')
  | .alpha, c => c.isAlpha
  | .ee, c => c = 'e' || c = 'E'
  | .sign, c => c = '+' || c = '-'
  | .xX, c => c = 'x' || c = 'X'
  | .chr c0, c => c = c0

/-- Whether every character of the class is a digit. -/
def CClass.digitOnly : CClass → Bool
  | .digit => true
  | .chr c0 => c0.isDigit
  | _ => false

/-- The fragment of regular expressions needed for the numerical patterns:
the empty expression, a single class, one-or-more of a class (greedy), an
optional subexpression (greedy) and concatenation. -/
inductive RE where
  | eps
  | cls (cc : CClass)
  | plus (cc : CClass)
  | opt (r : RE)
  | cat (a b : RE)

/-- Greedy matching of a prefix: the unconsumed rest on success. -/
def reMatch : RE → List Char → Option (List Char)
  | .eps, l => some l
  | .cls cc, [] => (fun _ => none) cc
  | .cls cc, c :: rest => if cc.test c then some rest else none
  | .plus cc, [] => (fun _ => none) cc
  | .plus cc, c :: rest => if cc.test c then some (rest.dropWhile cc.test) else none
  | .opt r, l =>
    match reMatch r l with
    | some rest => some rest
    | none => some l
  | .cat a b, l => (reMatch a l).bind (reMatch b)

/-- Whether every string the expression matches contains a digit. -/
def requiresDigit : RE → Bool
  | .eps => false
  | .cls cc => cc.digitOnly
  | .plus cc => cc.digitOnly
  | .opt _ => false
  | .cat a b => requiresDigit a || requiresDigit b

/-- One compiled numerical pattern: the body with its anchors. -/
structure NumPat where
  anchStart : Bool
  body : RE
  anchEnd : Bool

/-- Concatenation of a list of items. -/
def reSeq (rs : List RE) : RE := rs.foldr RE.cat RE.eps

/-- An optionally signed integer or float: the shape of the second pattern
family. -/
def reNum : RE :=
  reSeq [.opt (.cls (.chr '-')), .plus .digit, .opt (.cat (.cls (.chr '.')) (.plus .digit))]

/-- A hexadecimal value with its 0x or 0X marker. -/
def reHex : RE := reSeq [.cls (.chr '0'), .cls .xX, .plus .hexd]

/-- A number in scientific notation. -/
def reSci : RE := reSeq [reNum, .cls .ee, .opt (.cls .sign), .plus .digit]

/-- A number immediately followed by a unit of letters. -/
def reUnit : RE := reSeq [reNum, .plus .alpha]

/-- An identifier of letters with an underscore and a numeric suffix. -/
def reIdent : RE :=
  reSeq [.plus .alpha, .cls (.chr '_'), .opt (.cls (.chr '-')), .plus .digit]

/-- The five placements every numerical pattern family uses: surrounded by
spaces, parenthesized, bracketed, space-then-end, start-then-space. -/
def placements (r : RE) : List NumPat :=
  [ ⟨false, reSeq [.cls .ws, r, .cls .ws], false⟩,
    ⟨false, reSeq [.cls (.chr '('), r, .cls (.chr ')')], false⟩,
    ⟨false, reSeq [.cls (.chr '['), r, .cls (.chr ']')], false⟩,
    ⟨false, reSeq [.cls .ws, r], true⟩,
    ⟨true, reSeq [r, .cls .ws], false⟩ ]

/-- The table numericalPatterns, in source order: basic integers, signed
integers and floats, hexadecimal values, scientific notation, numbers with
units, identifiers with a numeric suffix. -/
def numericalPatterns : List NumPat :=
  placements (.plus .digit) ++ placements reNum ++ placements reHex
    ++ placements reSci ++ placements reUnit ++ placements reIdent

/-- The replacement function of replaceRemainingNumericalVariables:
preserve a leading/trailing space of the match; a fully parenthesized or
bracketed remainder becomes `(<*>)` / `[<*>]`, anything else the plain
placeholder. -/
def numericReplacement (m : List Char) : List Char :=
  let pre : List Char := if m.head? = some ' ' then [' '] else []
  let c1 := if m.head? = some ' ' then m.drop 1 else m
  let suf : List Char := if m.getLast? = some ' ' then [' '] else []
  let c2 := if m.getLast? = some ' ' then c1.dropLast else c1
  if c2.head? = some '(' && c2.getLast? = some ')' then "(<*>)".data
  else if c2.head? = some '[' && c2.getLast? = some ']' then "[<*>]".data
  else pre ++ "<*>".data ++ suf

/-- The scan of ReplaceAllStringFunc for an unanchored-start pattern:
leftmost matches, non-overlapping, resuming after each match.  The fuel is
the length of the scanned text (every match of a numerical pattern is
non-empty, so the rest shrinks). -/
def scanRA (body : RE) (anchEnd : Bool) (f : List Char → List Char) :
    Nat → List Char → List Char
  | _, [] => []
  | 0, l => l
  | fuel + 1, c :: rest =>
    match reMatch body (c :: rest) with
    | none => c :: scanRA body anchEnd f fuel rest
    | some rem =>
      if anchEnd && !rem.isEmpty then c :: scanRA body anchEnd f fuel rest
      else if rem.length < rest.length + 1 then
        f ((c :: rest).take (rest.length + 1 - rem.length)) ++ scanRA body anchEnd f fuel rem
      else c :: scanRA body anchEnd f fuel rest

/-- ReplaceAllStringFunc for one numerical pattern: a `^`-anchored pattern
can only match at the start of the text; any other pattern is scanned. -/
def replaceAllNum (p : NumPat) (f : List Char → List Char) (l : List Char) : List Char :=
  if p.anchStart then
    match reMatch p.body l with
    | none => l
    | some rem =>
      if p.anchEnd && !rem.isEmpty then l
      else if rem.length < l.length then f (l.take (l.length - rem.length)) ++ rem
      else l
  else scanRA p.body p.anchEnd f l.length l

/-- The numeric cleanup pass on one template: the thirty numerical patterns
applied in order. -/
def cleanupTemplate (t : String) : String :=
  String.mk (numericalPatterns.foldl (fun l p => replaceAllNum p numericReplacement l) t.data)

/-- replaceRemainingNumericalVariables: the cleanup pass over every
pattern's template (the per-event propagation is `eventTemplate`). -/
def replaceRemainingNumericalVariables (ps : List Pattern) : List Pattern :=
  ps.map (fun p => { p with Template := cleanupTemplate p.Template })

/-! ### Parse and the result registry -/

/-- The per-line length cap of Parse (const maxLineLength): 10,000
characters. -/
def maxLineLength : Nat := 10000

/-- Truncation of an overlong line before preprocessing. -/
def truncateLine (s : String) : String :=
  if maxLineLength < s.data.length then String.mk (s.data.take maxLineLength) else s

/-- The preprocessing step of Parse for one input line: trim, drop when
blank, truncate, preprocess. -/
def preprocessLine (pre : String → String) (idx : Nat) (line : String) : Option LogEvent :=
  let l := trimSpace line
  if l = "" then none else some (Preprocess pre idx (truncateLine l))

/-- Step 1 of Parse: the event list, in input order, skipping blank
lines.  The input position stamps the pointer identity `idx`. -/
def parseEvents (pre : String → String) (logLines : List String) : List LogEvent :=
  logLines.enum.filterMap (fun p => preprocessLine pre p.1 p.2)

/-- Map insertion with Go map semantics: overwrite an existing key, append
a new one. -/
def upsert (m : List (String × String)) (k v : String) : List (String × String) :=
  if m.any (fun kv => kv.1 = k) then m.map (fun kv => if kv.1 = k then (k, v) else kv)
  else m ++ [(k, v)]

/-- The fallback chain of the result loop of Parse: template, else
preprocessed content, else raw line, each trimmed. -/
def resultValue (event : LogEvent) (template : String) : String :=
  let t := trimSpace template
  if t ≠ "" then t
  else
    let c := trimSpace event.Content
    if c ≠ "" then c else trimSpace event.Raw

/-- The result map of Parse, built over the events in input order. -/
def buildResults (events : List LogEvent) (ps : List Pattern) : List (String × String) :=
  events.foldl (fun m e => upsert m e.Raw (resultValue e (eventTemplate ps e))) []

/-- Steps 2-4 of Parse: pattern recognition from an empty pattern list,
frequency analysis, numeric cleanup. -/
def parsePatterns (pre : String → String) (cfg : Config) (logLines : List String) : List Pattern :=
  replaceRemainingNumericalVariables
    (frequencyAnalysis cfg (patternRecognition cfg [] (parseEvents pre logLines)))

/-- Parse: the complete parsing process on a fresh engine.  The Go nil
check returns the empty map, which the empty list also yields. -/
def Parse (pre : String → String) (cfg : Config) (logLines : List String) :
    List (String × String) :=
  buildResults (parseEvents pre logLines) (parsePatterns pre cfg logLines)

/-- isValidTemplate: non-empty with at least MinTemplateTokens
non-placeholder tokens. -/
def isValidTemplate (cfg : Config) (template : String) : Bool :=
  if template = "" then false
  else
    let tokens := fields template
    if tokens = [] then false
    else decide (cfg.MinTemplateTokens ≤ (tokens.countP (fun t => t ≠ placeholder) : ℤ))

/-- GetTemplates: the distinct valid trimmed templates, in ascending string
order. -/
def GetTemplates (cfg : Config) (ps : List Pattern) : List String :=
  (ps.foldl
    (fun acc p =>
      let t := trimSpace p.Template
      if isValidTemplate cfg t && !acc.contains t then acc ++ [t] else acc)
    []).mergeSort (fun a b => a ≤ b)

/-! ### The engine structure and WithConfig -/

/-- The parser structure (struct AWSOMLP).  A compiled regular expression
is modelled by the pattern string it was compiled from; `headerRegex` is
`none` while no configuration has been applied. -/
structure AWSOMLP where
  patterns : List Pattern
  headerRegex : Option String
  customRegexes : List String
  config : Config
deriving DecidableEq

/-- NewAWSOMLP(). -/
def NewAWSOMLP : AWSOMLP :=
  { patterns := [], headerRegex := none, customRegexes := [], config := defaultConfig }

/-- The default filling of zero-valued fields at the start of WithConfig
(the Go nil check on CustomRegexes replaces nil by the empty default, a
no-op in the list model). -/
def fillDefaults (config : Config) : Config :=
  { config with
    MinSimilarity := if config.MinSimilarity = 0 then defaultConfig.MinSimilarity
      else config.MinSimilarity
    HeaderRegex := if config.HeaderRegex = "" then defaultConfig.HeaderRegex
      else config.HeaderRegex
    MinGroupSize := if config.MinGroupSize = 0 then defaultConfig.MinGroupSize
      else config.MinGroupSize
    MaxPlaceholderShare := if config.MaxPlaceholderShare = 0 then defaultConfig.MaxPlaceholderShare
      else config.MaxPlaceholderShare
    MinTemplateTokens := if config.MinTemplateTokens = 0 then defaultConfig.MinTemplateTokens
      else config.MinTemplateTokens
    FreqPercentile := if config.FreqPercentile = 0 then defaultConfig.FreqPercentile
      else config.FreqPercentile }

/-- The numeric range validation of WithConfig, in source order: the error
message of the first failing check. -/
def validateErr (config : Config) : Option String :=
  if config.MinSimilarity < 0 ∨ 1 < config.MinSimilarity then
    some "MinSimilarity must be between 0 and 1"
  else if config.MinGroupSize < 1 then
    some "MinGroupSize must be at least 1"
  else if config.MaxPlaceholderShare < 0 ∨ 1 < config.MaxPlaceholderShare then
    some "MaxPlaceholderRatio must be between 0 and 1"
  else if config.MinTemplateTokens < 0 then
    some "MinTemplateTokens must be non-negative"
  else if config.FreqPercentile < 0 ∨ 1 < config.FreqPercentile then
    some "FreqPercentile must be between 0 and 1"
  else none

/-- The compilation loop over CustomRegexes: each compiled pattern is
appended to the engine's list as it is compiled (`lp.customRegexes =
append(...)` in the loop body); the first failure stops with the partially
mutated engine. -/
def compileCustoms (compileOk : String → Bool) (lp : AWSOMLP) :
    List String → AWSOMLP × Option String
  | [] => (lp, none)
  | r :: rest =>
    if compileOk r then
      compileCustoms compileOk { lp with customRegexes := lp.customRegexes ++ [r] } rest
    else (lp, some ("invalid custom regex pattern " ++ r))

/-- WithConfig: fill defaults, validate numeric ranges, compile and install
the header regex, reset and compile the custom regexes, finally install the
config.  `compileOk` models Go regexp.Compile succeeding on a pattern. -/
def withConfig (compileOk : String → Bool) (lp : AWSOMLP) (config : Config) :
    AWSOMLP × Option String :=
  let config := fillDefaults config
  match validateErr config with
  | some e => (lp, some e)
  | none =>
    if !compileOk config.HeaderRegex then (lp, some "invalid HeaderRegex")
    else
      let lp1 : AWSOMLP := { lp with headerRegex := some config.HeaderRegex, customRegexes := [] }
      match compileCustoms compileOk lp1 config.CustomRegexes with
      | (lp2, some e) => (lp2, some e)
      | (lp2, none) => ({ lp2 with config := config }, none)

/-! ### Lemmas: trimming and truncation -/

theorem trimList_eq_rdropWhile (l : List Char) :
    trimList l = (l.dropWhile isWS).rdropWhile isWS := rfl

theorem trimList_head_not_ws {l : List Char} {c : Char} {cs : List Char}
    (h : trimList l = c :: cs) : isWS c = false := by
  rw [trimList_eq_rdropWhile] at h
  have hpre : (l.dropWhile isWS).rdropWhile isWS <+: l.dropWhile isWS :=
    List.rdropWhile_prefix _ _
  rw [h] at hpre
  obtain ⟨t, ht⟩ := hpre
  have hne : l.dropWhile isWS ≠ [] := by
    intro hnil
    rw [hnil] at ht
    simp at ht
  have hhead := List.head_dropWhile_not isWS l hne
  have hq : (l.dropWhile isWS).head? = some c := by
    rw [← ht]
    simp
  rw [List.head?_eq_head hne] at hq
  have hc : (l.dropWhile isWS).head hne = c := by
    simpa using hq
  rw [hc] at hhead
  simpa using hhead

theorem trimList_cases (l : List Char) :
    trimList l = [] ∨ ∃ c cs, trimList l = c :: cs ∧ isWS c = false := by
  cases h : trimList l with
  | nil => exact Or.inl rfl
  | cons c cs => exact Or.inr ⟨c, cs, rfl, trimList_head_not_ws h⟩

theorem trimList_idem (l : List Char) : trimList (trimList l) = trimList l := by
  have h1 : (trimList l).dropWhile isWS = trimList l := by
    rcases trimList_cases l with h | ⟨c, cs, hcs, hws⟩
    · rw [h]
      rfl
    · rw [hcs, List.dropWhile_cons, hws]
      simp
  calc trimList (trimList l) = ((trimList l).dropWhile isWS).rdropWhile isWS := rfl
    _ = (trimList l).rdropWhile isWS := by rw [h1]
    _ = ((l.dropWhile isWS).rdropWhile isWS).rdropWhile isWS := rfl
    _ = trimList l := by
        rw [List.rdropWhile_idempotent]
        exact (trimList_eq_rdropWhile l).symm

theorem trimSpace_idem (s : String) : trimSpace (trimSpace s) = trimSpace s := by
  simp [trimSpace, trimList_idem]

theorem trimSpace_ne_nil_head {s : String} (h : trimSpace s ≠ "") :
    ∃ c cs, (trimSpace s).data = c :: cs ∧ isWS c = false := by
  cases hd : (trimSpace s).data with
  | nil => exact absurd (String.ext (show (trimSpace s).data = ("" : String).data from hd)) h
  | cons c cs =>
    refine ⟨c, cs, rfl, ?_⟩
    exact trimList_head_not_ws (show trimList s.data = c :: cs from hd)

theorem trimList_ne_nil_of_mem {l : List Char} {c : Char} (hc : c ∈ l)
    (hws : isWS c = false) : trimList l ≠ [] := by
  rw [trimList_eq_rdropWhile]
  have h1 : c ∈ l.dropWhile isWS := by
    induction l with
    | nil => cases hc
    | cons a as ih =>
      rw [List.dropWhile_cons]
      by_cases ha : isWS a
      · simp only [ha, if_true]
        rcases List.mem_cons.mp hc with rfl | hmem
        · rw [hws] at ha; cases ha
        · exact ih hmem
      · simpa [ha] using hc
  intro hnil
  rw [List.rdropWhile_eq_nil_iff] at hnil
  have := hnil c h1
  rw [hws] at this
  cases this

theorem trim_mk_cons_ne {c : Char} {l : List Char} (hws : isWS c = false) :
    trimSpace (String.mk (c :: l)) ≠ "" := by
  intro hnil
  have hdata : trimList (c :: l) = [] := by
    have h2 : (trimSpace (String.mk (c :: l))).data = trimList (c :: l) := rfl
    rw [hnil] at h2
    exact h2.symm
  exact trimList_ne_nil_of_mem (List.mem_cons_self c l) hws hdata

theorem trim_truncate_ne {s : String} (h : trimSpace s ≠ "") :
    trimSpace (truncateLine (trimSpace s)) ≠ "" := by
  obtain ⟨c, cs, hd, hws⟩ := trimSpace_ne_nil_head h
  rw [truncateLine]
  split
  · rw [hd]
    have h10 : maxLineLength = 9999 + 1 := rfl
    rw [h10, List.take_succ_cons]
    exact trim_mk_cons_ne hws
  · rw [trimSpace_idem]
    exact h

theorem truncateLine_length (s : String) :
    (truncateLine s).data.length ≤ maxLineLength := by
  rw [truncateLine]
  split
  · simp
  · omega

theorem truncateLine_of_le {s : String} (h : s.data.length ≤ maxLineLength) :
    truncateLine s = s := by
  rw [truncateLine, if_neg]
  omega

/-- Claim C9 support: membership in the preprocessed event list. -/
theorem mem_parseEvents {pre : String → String} {logLines : List String} {e : LogEvent} :
    e ∈ parseEvents pre logLines ↔
      ∃ i line, (i, line) ∈ logLines.enum ∧ preprocessLine pre i line = some e := by
  rw [parseEvents, List.mem_filterMap]
  constructor
  · rintro ⟨⟨i, line⟩, hmem, hsome⟩
    exact ⟨i, line, hmem, hsome⟩
  · rintro ⟨i, line, hmem, hsome⟩
    exact ⟨(i, line), hmem, hsome⟩

theorem snd_mem_of_mem_enum {α : Type} {l : List α} {i : Nat} {a : α}
    (h : (i, a) ∈ l.enum) : a ∈ l :=
  List.snd_mem_of_mem_enum h

theorem mem_enumFrom_of_mem {α : Type} {l : List α} {a : α} (h : a ∈ l) :
    ∀ n, ∃ i, (i, a) ∈ List.enumFrom n l := by
  induction l with
  | nil => cases h
  | cons x xs ih =>
    intro n
    rcases List.mem_cons.mp h with rfl | hmem
    · exact ⟨n, by simp [List.enumFrom]⟩
    · obtain ⟨i, hi⟩ := ih hmem (n + 1)
      exact ⟨i, by simp [List.enumFrom, hi]⟩

theorem mem_enum_of_mem {α : Type} {l : List α} {a : α} (h : a ∈ l) :
    ∃ i, (i, a) ∈ l.enum :=
  mem_enumFrom_of_mem h 0

/-! ### Lemmas: the result map -/

theorem map_fst_replace (m : List (String × String)) (k v : String) :
    (m.map (fun kv => if kv.1 = k then (k, v) else kv)).map Prod.fst = m.map Prod.fst := by
  induction m with
  | nil => rfl
  | cons kv rest ih =>
    simp only [List.map_cons, ih]
    by_cases h1 : kv.1 = k
    · rw [if_pos h1]
      simp [h1]
    · rw [if_neg h1]

theorem keys_upsert (m : List (String × String)) (k v : String) :
    (upsert m k v).map Prod.fst =
      if k ∈ m.map Prod.fst then m.map Prod.fst else m.map Prod.fst ++ [k] := by
  rw [upsert]
  by_cases hk : k ∈ m.map Prod.fst
  · have hany : m.any (fun kv => kv.1 = k) = true := by
      rw [List.any_eq_true]
      obtain ⟨⟨k', v'⟩, hmem, hfst⟩ := List.mem_map.mp hk
      refine ⟨(k', v'), hmem, ?_⟩
      simp only [decide_eq_true_eq]
      exact hfst
    rw [if_pos hany, if_pos hk]
    exact map_fst_replace m k v
  · have hany : m.any (fun kv => kv.1 = k) = false := by
      rw [List.any_eq_false]
      intro kv hmem
      simp only [decide_eq_true_eq]
      intro h1
      exact hk (List.mem_map.mpr ⟨kv, hmem, h1⟩)
    rw [if_neg (by simp [hany]), if_neg hk]
    simp

theorem mem_keys_upsert {m : List (String × String)} {k v a : String} :
    a ∈ (upsert m k v).map Prod.fst ↔ a ∈ m.map Prod.fst ∨ a = k := by
  rw [keys_upsert]
  by_cases hk : k ∈ m.map Prod.fst
  · rw [if_pos hk]
    constructor
    · exact Or.inl
    · rintro (h | rfl)
      · exact h
      · exact hk
  · rw [if_neg hk]
    simp

theorem mem_upsert_sub {m : List (String × String)} {k v : String} {kv : String × String}
    (h : kv ∈ upsert m k v) : kv ∈ m ∨ kv = (k, v) := by
  rw [upsert] at h
  split at h
  · obtain ⟨kv', hmem, heq⟩ := List.mem_map.mp h
    by_cases h1 : kv'.1 = k
    · right
      rw [← heq]
      simp [h1]
    · left
      rw [← heq]
      simpa [h1] using hmem
  · rcases List.mem_append.mp h with h | h
    · exact Or.inl h
    · right
      simpa using h

theorem nodup_keys_upsert {m : List (String × String)} {k v : String}
    (h : (m.map Prod.fst).Nodup) : ((upsert m k v).map Prod.fst).Nodup := by
  rw [keys_upsert]
  by_cases hk : k ∈ m.map Prod.fst
  · rwa [if_pos hk]
  · rw [if_neg hk, List.nodup_append]
    refine ⟨h, List.nodup_singleton _, ?_⟩
    intro a ha hb
    rw [List.mem_singleton] at hb
    exact hk (hb ▸ ha)

theorem lookup_eq_some_of_mem_keys {m : List (String × String)} {a : String}
    (h : a ∈ m.map Prod.fst) : ∃ v, m.lookup a = some v := by
  induction m with
  | nil => simp at h
  | cons kv rest ih =>
    simp only [List.map_cons, List.mem_cons] at h
    by_cases h1 : a = kv.1
    · have hb : (a == kv.1) = true := by simp [h1]
      exact ⟨kv.2, by rw [List.lookup, hb]⟩
    · have hb : (a == kv.1) = false := by simp [h1]
      rcases h with h | h
      · exact absurd h h1
      · obtain ⟨v, hv⟩ := ih h
        exact ⟨v, by rw [List.lookup, hb]; exact hv⟩

theorem mem_of_lookup_eq_some {m : List (String × String)} {a v : String}
    (h : m.lookup a = some v) : (a, v) ∈ m := by
  induction m with
  | nil => simp [List.lookup] at h
  | cons kv rest ih =>
    rw [List.lookup] at h
    by_cases h1 : a = kv.1
    · have hb : (a == kv.1) = true := by simp [h1]
      rw [hb] at h
      have hv : kv.2 = v := Option.some.inj h
      have heq : (a, v) = kv := by
        rw [h1, ← hv]
      exact List.mem_cons.mpr (Or.inl heq)
    · have hb : (a == kv.1) = false := by simp [h1]
      rw [hb] at h
      exact List.mem_cons_of_mem _ (ih h)

theorem mem_keys_foldIns (events : List LogEvent) (ps : List Pattern)
    (m0 : List (String × String)) (a : String) :
    a ∈ ((events.foldl (fun m e => upsert m e.Raw (resultValue e (eventTemplate ps e))) m0).map
        Prod.fst) ↔ a ∈ m0.map Prod.fst ∨ ∃ e ∈ events, e.Raw = a := by
  induction events generalizing m0 with
  | nil => simp
  | cons e rest ih =>
    rw [List.foldl_cons, ih]
    rw [mem_keys_upsert]
    constructor
    · rintro (⟨h | rfl⟩ | ⟨e', hmem, hraw⟩)
      · exact Or.inl h
      · exact Or.inr ⟨e, List.mem_cons_self _ _, rfl⟩
      · exact Or.inr ⟨e', List.mem_cons_of_mem _ hmem, hraw⟩
    · rintro (h | ⟨e', hmem, hraw⟩)
      · exact Or.inl (Or.inl h)
      · rcases List.mem_cons.mp hmem with rfl | hmem2
        · exact Or.inl (Or.inr hraw.symm)
        · exact Or.inr ⟨e', hmem2, hraw⟩

theorem values_foldIns (P : String → Prop) (events : List LogEvent) (ps : List Pattern)
    (m0 : List (String × String)) (h0 : ∀ kv ∈ m0, P kv.2)
    (hev : ∀ e ∈ events, P (resultValue e (eventTemplate ps e))) :
    ∀ kv ∈ events.foldl (fun m e => upsert m e.Raw (resultValue e (eventTemplate ps e))) m0,
      P kv.2 := by
  induction events generalizing m0 with
  | nil => exact h0
  | cons e rest ih =>
    rw [List.foldl_cons]
    apply ih
    · intro kv hkv
      rcases mem_upsert_sub hkv with h | rfl
      · exact h0 kv h
      · exact hev e (List.mem_cons_self _ _)
    · intro e' he'
      exact hev e' (List.mem_cons_of_mem _ he')

theorem nodup_keys_foldIns (events : List LogEvent) (ps : List Pattern)
    (m0 : List (String × String)) (h0 : (m0.map Prod.fst).Nodup) :
    ((events.foldl (fun m e => upsert m e.Raw (resultValue e (eventTemplate ps e))) m0).map
      Prod.fst).Nodup := by
  induction events generalizing m0 with
  | nil => exact h0
  | cons e rest ih =>
    rw [List.foldl_cons]
    exact ih _ (nodup_keys_upsert h0)

theorem mem_foldIns_sub (events : List LogEvent) (ps : List Pattern)
    (m0 : List (String × String)) (kv : String × String)
    (h : kv ∈ events.foldl (fun m e => upsert m e.Raw (resultValue e (eventTemplate ps e))) m0) :
    kv ∈ m0 ∨ ∃ e ∈ events, kv = (e.Raw, resultValue e (eventTemplate ps e)) := by
  induction events generalizing m0 with
  | nil => exact Or.inl h
  | cons e rest ih =>
    rw [List.foldl_cons] at h
    rcases ih _ h with h2 | ⟨e2, hmem, hkv⟩
    · rcases mem_upsert_sub h2 with h3 | rfl
      · exact Or.inl h3
      · exact Or.inr ⟨e, List.mem_cons_self _ _, rfl⟩
    · exact Or.inr ⟨e2, List.mem_cons_of_mem _ hmem, hkv⟩

/-! ### Lemmas: the event list of Parse -/

theorem parseEvents_raw {pre : String → String} {logLines : List String} {e : LogEvent}
    (h : e ∈ parseEvents pre logLines) :
    ∃ line ∈ logLines, trimSpace line ≠ "" ∧ e.Raw = truncateLine (trimSpace line)
      ∧ e.Content = pre e.Raw ∧ e.Tokens = fields e.Content := by
  obtain ⟨i, line, hmem, hsome⟩ := mem_parseEvents.mp h
  rw [preprocessLine] at hsome
  split at hsome
  · cases hsome
  · refine ⟨line, snd_mem_of_mem_enum hmem, by assumption, ?_⟩
    have he : e = Preprocess pre i (truncateLine (trimSpace line)) := by
      exact (Option.some.injEq _ _ |>.mp hsome).symm
    rw [he]
    exact ⟨rfl, rfl, rfl⟩

theorem parseEvents_key_exists (pre : String → String) {logLines : List String} {line : String}
    (hline : line ∈ logLines) (hne : trimSpace line ≠ "") :
    ∃ e ∈ parseEvents pre logLines, e.Raw = truncateLine (trimSpace line) := by
  obtain ⟨i, hi⟩ := mem_enum_of_mem hline
  refine ⟨Preprocess pre i (truncateLine (trimSpace line)), ?_, rfl⟩
  apply mem_parseEvents.mpr
  exact ⟨i, line, hi, by rw [preprocessLine, if_neg hne]⟩

theorem parseEvents_raw_ne {pre : String → String} {logLines : List String} {e : LogEvent}
    (h : e ∈ parseEvents pre logLines) : trimSpace e.Raw ≠ "" := by
  obtain ⟨line, _, hne, hraw, _, _⟩ := parseEvents_raw h
  rw [hraw]
  exact trim_truncate_ne hne

theorem resultValue_ne {e : LogEvent} {t : String} (h : trimSpace e.Raw ≠ "") :
    resultValue e t ≠ "" := by
  rw [resultValue]
  split
  · assumption
  · show (if trimSpace e.Content ≠ "" then trimSpace e.Content else trimSpace e.Raw) ≠ ""
    split
    · assumption
    · exact h

/-- The keys of the result of Parse are exactly the trimmed-and-truncated
forms of the non-blank input lines. -/
theorem mem_keys_Parse {pre : String → String} {cfg : Config} {logLines : List String}
    {a : String} :
    a ∈ (Parse pre cfg logLines).map Prod.fst ↔
      ∃ line ∈ logLines, trimSpace line ≠ "" ∧ a = truncateLine (trimSpace line) := by
  rw [Parse, buildResults, mem_keys_foldIns]
  constructor
  · rintro (h | ⟨e, hmem, hraw⟩)
    · simp at h
    · obtain ⟨line, hline, hne, heraw, _, _⟩ := parseEvents_raw hmem
      exact ⟨line, hline, hne, by rw [← hraw, heraw]⟩
  · rintro ⟨line, hline, hne, rfl⟩
    obtain ⟨e, hmem, hraw⟩ := parseEvents_key_exists pre hline hne
    exact Or.inr ⟨e, hmem, hraw⟩

/-! ### Lemmas: concrete overlong lines for the truncation corner case -/

/-- A 10002-character line with a space at position 9999: trimmed it is
itself, truncated it ends in that space. -/
def bigX : String := String.mk (List.replicate 9999 'c' ++ [' ', 'b', 'b'])

/-- The 10000-character truncation of `bigX`: it carries a trailing
space. -/
def bigL : String := String.mk (List.replicate 9999 'c' ++ [' '])

theorem dropWhile_isWS_replicate_c (n : Nat) (t : List Char) :
    (List.replicate (n + 1) 'c' ++ t).dropWhile isWS = List.replicate (n + 1) 'c' ++ t := by
  rw [List.replicate_succ, List.cons_append, List.dropWhile_cons]
  simp [isWS]

theorem rdropWhile_isWS_replicate_c (n : Nat) :
    (List.replicate (n + 1) 'c').rdropWhile isWS = List.replicate (n + 1) 'c' := by
  rw [List.replicate_succ']
  exact List.rdropWhile_concat_neg isWS _ 'c' (by simp [isWS])

theorem trimList_repc_space (n : Nat) :
    trimList (List.replicate (n + 1) 'c' ++ [' ']) = List.replicate (n + 1) 'c' := by
  rw [trimList_eq_rdropWhile, dropWhile_isWS_replicate_c]
  rw [List.rdropWhile_concat_pos isWS _ ' ' (by simp [isWS])]
  exact rdropWhile_isWS_replicate_c n

theorem trimList_repc_sbb (n : Nat) :
    trimList (List.replicate (n + 1) 'c' ++ [' ', 'b', 'b']) =
      List.replicate (n + 1) 'c' ++ [' ', 'b', 'b'] := by
  rw [trimList_eq_rdropWhile, dropWhile_isWS_replicate_c]
  rw [show ([' ', 'b', 'b'] : List Char) = [' ', 'b'] ++ ['b'] from rfl, ← List.append_assoc]
  exact List.rdropWhile_concat_neg isWS _ 'b' (by simp [isWS])

theorem data_trimSpace (s : String) : (trimSpace s).data = trimList s.data := rfl

theorem trim_bigL : trimSpace bigL = String.mk (List.replicate 9999 'c') := by
  apply String.ext
  rw [data_trimSpace]
  rw [show bigL.data = List.replicate (9998 + 1) 'c' ++ [' '] from rfl]
  rw [trimList_repc_space 9998]

theorem trim_bigX : trimSpace bigX = bigX := by
  apply String.ext
  rw [data_trimSpace]
  rw [show bigX.data = List.replicate (9998 + 1) 'c' ++ [' ', 'b', 'b'] from rfl]
  rw [trimList_repc_sbb 9998]

theorem length_bigX : bigX.data.length = 10002 := by
  rw [show bigX.data = List.replicate 9999 'c' ++ [' ', 'b', 'b'] from rfl]
  rw [List.length_append, List.length_replicate]
  simp

theorem trim_bigX_ne : trimSpace bigX ≠ "" := by
  rw [trim_bigX]
  intro h
  have hlen : bigX.data.length = ("" : String).data.length := by rw [h]
  rw [length_bigX] at hlen
  simp at hlen

theorem take_repc_sbb (n : Nat) :
    (List.replicate (n + 1) 'c' ++ [' ', 'b', 'b']).take (n + 2) =
      List.replicate (n + 1) 'c' ++ [' '] := by
  rw [List.take_append_eq_append_take]
  rw [List.take_of_length_le (by rw [List.length_replicate]; omega)]
  congr 1
  rw [List.length_replicate]
  rw [show n + 2 - (n + 1) = 1 from by omega]
  rfl

theorem truncate_trim_bigX : truncateLine (trimSpace bigX) = bigL := by
  rw [trim_bigX]
  rw [truncateLine, if_pos]
  · apply String.ext
    rw [show (String.mk (bigX.data.take maxLineLength)).data = bigX.data.take maxLineLength
      from rfl]
    rw [show bigX.data = List.replicate (9998 + 1) 'c' ++ [' ', 'b', 'b'] from rfl]
    rw [show maxLineLength = 9998 + 2 from rfl]
    rw [take_repc_sbb 9998]
    rfl
  · rw [length_bigX]
    norm_num [maxLineLength]

/-! ### Lemmas: first-fit assignment -/

theorem tryAssign_none {cfg : Config} {event : LogEvent} {ps : List Pattern}
    (h : ∀ p ∈ ps, matchesPattern cfg event p = false) :
    tryAssign cfg event ps = none := by
  induction ps with
  | nil => rfl
  | cons p rest ih =>
    rw [tryAssign, if_neg]
    · rw [ih (fun q hq => h q (List.mem_cons_of_mem _ hq))]
      rfl
    · rw [h p (List.mem_cons_self _ _)]
      simp

theorem tryAssign_first_fit {cfg : Config} {event : LogEvent} :
    ∀ (ps : List Pattern) (i : Nat), i < ps.length →
      matchesPattern cfg event (ps.getD i default) = true →
      (∀ j : Nat, j < i → matchesPattern cfg event (ps.getD j default) = false) →
      tryAssign cfg event ps = some (ps.take i ++
        ({ ps.getD i default with
            Events := (ps.getD i default).Events ++ [event] } :: ps.drop (i + 1))) := by
  intro ps
  induction ps with
  | nil =>
    intro i hi
    simp at hi
  | cons p rest ih =>
    intro i hi hmatch hfirst
    cases i with
    | zero =>
      rw [List.getD_cons_zero] at hmatch
      rw [tryAssign, if_pos hmatch]
      simp
    | succ j =>
      have hp : matchesPattern cfg event p = false := by
        have := hfirst 0 (Nat.succ_pos j)
        rwa [List.getD_cons_zero] at this
      rw [List.getD_cons_succ] at hmatch
      rw [tryAssign, if_neg (by rw [hp]; simp)]
      rw [ih j (by simpa using hi) hmatch (fun k hk => by
        have := hfirst (k + 1) (by omega)
        rwa [List.getD_cons_succ] at this)]
      simp

/-! ### The claims -/

/-- C9: a line whose trimmed form exceeds 10,000 characters is truncated to
its first 10,000 characters before preprocessing; every event of the
pipeline carries a raw line of at most 10,000 characters, and the rest of
Parse consumes only the event list built this way. -/
theorem claim_C9 (pre : String → String) (cfg : Config) (idx : Nat) (line : String)
    (logLines : List String) :
    (preprocessLine pre idx line =
      if trimSpace line = "" then none
      else if 10000 < (trimSpace line).data.length then
        some (Preprocess pre idx (String.mk ((trimSpace line).data.take 10000)))
      else some (Preprocess pre idx (trimSpace line)))
  ∧ parseEvents pre logLines = logLines.enum.filterMap (fun p => preprocessLine pre p.1 p.2)
  ∧ (∀ e ∈ parseEvents pre logLines, e.Raw.data.length ≤ 10000)
  ∧ Parse pre cfg logLines
      = buildResults (parseEvents pre logLines) (parsePatterns pre cfg logLines) := by
  refine ⟨?_, rfl, ?_, rfl⟩
  · by_cases h1 : trimSpace line = ""
    · simp [preprocessLine, h1]
    · by_cases h2 : 10000 < (trimSpace line).data.length
      · rw [preprocessLine, if_neg h1, truncateLine,
          if_pos (show maxLineLength < (trimSpace line).data.length from h2), if_pos h2,
          if_neg h1]
        rfl
      · rw [preprocessLine, if_neg h1, truncateLine,
          if_neg (show ¬maxLineLength < (trimSpace line).data.length from h2), if_neg h2,
          if_neg h1]
  · intro e he
    obtain ⟨line2, _, _, hraw, _, _⟩ := parseEvents_raw he
    rw [hraw]
    exact truncateLine_length (trimSpace line2)

/-- C5: Parse never fails: the empty input yields the empty mapping, and
every non-blank input line contributes an entry (keyed by its trimmed and
truncated form) whose value, produced by the fallback chain
template/content/raw, is non-empty. -/
theorem claim_C5 (pre : String → String) (cfg : Config) (logLines : List String)
    (line : String) (hmem : line ∈ logLines) (hne : trimSpace line ≠ "") :
    Parse pre cfg [] = []
  ∧ (∀ kv ∈ Parse pre cfg logLines, ∃ e ∈ parseEvents pre logLines,
      kv = (e.Raw, resultValue e (eventTemplate (parsePatterns pre cfg logLines) e)))
  ∧ ∃ v, (Parse pre cfg logLines).lookup (truncateLine (trimSpace line)) = some v
      ∧ v ≠ "" := by
  refine ⟨rfl, ?_, ?_⟩
  · intro kv hkv
    rcases mem_foldIns_sub (parseEvents pre logLines) (parsePatterns pre cfg logLines) [] kv hkv
      with h | h
    · cases h
    · exact h
  have hkey : truncateLine (trimSpace line) ∈ (Parse pre cfg logLines).map Prod.fst :=
    mem_keys_Parse.mpr ⟨line, hmem, hne, rfl⟩
  obtain ⟨v, hv⟩ := lookup_eq_some_of_mem_keys hkey
  refine ⟨v, hv, ?_⟩
  have hpair := mem_of_lookup_eq_some hv
  have hvals := values_foldIns (fun x => x ≠ "")
    (parseEvents pre logLines) (parsePatterns pre cfg logLines) []
    (by simp)
    (fun e he => resultValue_ne (parseEvents_raw_ne he))
  exact hvals _ hpair

/-- C5 witness: a concrete non-blank line. -/
theorem claim_C5_witness :
    Parse id defaultConfig [] = []
  ∧ (∀ kv ∈ Parse id defaultConfig ["ab cd"], ∃ e ∈ parseEvents id ["ab cd"],
      kv = (e.Raw, resultValue e (eventTemplate (parsePatterns id defaultConfig ["ab cd"]) e)))
  ∧ ∃ v, (Parse id defaultConfig ["ab cd"]).lookup (truncateLine (trimSpace "ab cd")) = some v
      ∧ v ≠ "" :=
  claim_C5 id defaultConfig ["ab cd"] "ab cd" (by simp) (by decide)

/-- C10 (amended): the keys of the mapping of Parse are exactly the
trimmed-and-truncated forms of the non-blank input lines (so lines
differing only in surrounding white space collapse into the one entry of
their common trimmed form), the key set has no duplicates, and — provided
every trimmed input line is within the 10,000-character cap — a line
carrying surrounding white space never appears as a key. -/
theorem claim_C10 (pre : String → String) (cfg : Config) (logLines : List String) :
    (∀ a, a ∈ (Parse pre cfg logLines).map Prod.fst ↔
       ∃ line ∈ logLines, trimSpace line ≠ "" ∧ a = truncateLine (trimSpace line))
  ∧ ((Parse pre cfg logLines).map Prod.fst).Nodup
  ∧ (∀ l, trimSpace l ≠ l →
       (∀ l2 ∈ logLines, (trimSpace l2).data.length ≤ maxLineLength) →
       l ∉ (Parse pre cfg logLines).map Prod.fst) := by
  refine ⟨fun a => mem_keys_Parse, ?_, ?_⟩
  · exact nodup_keys_foldIns (parseEvents pre logLines) (parsePatterns pre cfg logLines) []
      (by simp)
  · intro l hl hshort hmemk
    obtain ⟨line, hline, hne, heq⟩ := mem_keys_Parse.mp hmemk
    rw [truncateLine_of_le (hshort line hline)] at heq
    apply hl
    rw [heq, trimSpace_idem]

/-- C10 counterexample: with a 10002-character line `bigX` whose trimmed
form is overlong and has a space at position 9999, the input line `bigL` —
which carries a trailing space — does appear as a key of the mapping of
Parse, against the claim that an input line carrying surrounding white
space never appears as a key. -/
theorem claim_C10_cex :
    trimSpace bigL ≠ bigL
  ∧ bigL ∈ (Parse (fun s => s) defaultConfig [bigX, bigL]).map Prod.fst := by
  constructor
  · intro h
    have h1 : (trimSpace bigL).data.length = 9999 := by
      rw [trim_bigL]
      rw [show (String.mk (List.replicate 9999 'c')).data = List.replicate 9999 'c' from rfl]
      rw [List.length_replicate]
    have h2 : bigL.data.length = 10000 := by
      rw [show bigL.data = List.replicate 9999 'c' ++ [' '] from rfl]
      rw [List.length_append, List.length_replicate]
      rfl
    rw [h, h2] at h1
    exact absurd h1 (by norm_num)
  · exact mem_keys_Parse.mpr ⟨bigX, List.mem_cons_self bigX [bigL], trim_bigX_ne,
      truncate_trim_bigX.symm⟩

/-- C1: pattern recognition processes events in input order; each event is
matched against the first event of each existing pattern in list order with
the inclusive threshold; the first matching pattern receives the event and
the scan stops; with no match a new pattern is appended whose sole event is
this one and whose ID is the pattern count before insertion. -/
theorem claim_C1 (cfg : Config) (ps : List Pattern) (event : LogEvent)
    (events : List LogEvent) :
    patternRecognition cfg ps (event :: events)
        = patternRecognition cfg (assignEvent cfg ps event) events
  ∧ (∀ p e0 tl, p.Events = e0 :: tl →
      (matchesPattern cfg event p = true ↔
        cfg.MinSimilarity ≤ calculateSimilarity cfg event e0))
  ∧ ((∀ p ∈ ps, matchesPattern cfg event p = false) →
      assignEvent cfg ps event
        = ps ++ [{ ID := ps.length, Events := [event], Template := "", Frequency := [] }])
  ∧ (∀ i : Nat, i < ps.length →
      matchesPattern cfg event (ps.getD i default) = true →
      (∀ j : Nat, j < i → matchesPattern cfg event (ps.getD j default) = false) →
      assignEvent cfg ps event
        = ps.take i ++ ({ ps.getD i default with
            Events := (ps.getD i default).Events ++ [event] } :: ps.drop (i + 1))) := by
  refine ⟨rfl, ?_, ?_, ?_⟩
  · intro p e0 tl hp
    rw [matchesPattern, hp]
    simp
  · intro h
    rw [assignEvent, tryAssign_none h]
  · intro i hi hmatch hfirst
    rw [assignEvent, tryAssign_first_fit ps i hi hmatch hfirst]

/-! ### Lemmas: similarity -/

theorem alphabeticalTokensMatch_self (a : List String) :
    alphabeticalTokensMatch a a = true := by
  rw [alphabeticalTokensMatch, if_neg (by simp)]
  rw [List.all_eq_true]
  intro x hx
  have := List.of_mem_zip hx
  rcases x with ⟨x1, x2⟩
  have hself : ∀ {l1 l2 : List String} (p : String × String), p ∈ l1.zip l2 → l1 = l2 →
      p.1 = p.2 := by
    intro l1 l2 p hp heq
    subst heq
    induction l1 with
    | nil => cases hp
    | cons y ys ih =>
      rcases List.mem_cons.mp hp with rfl | hmem
      · rfl
      · exact ih hmem
  simpa using hself (x1, x2) hx rfl

theorem alphabeticalTokensMatch_iff (a b : List String) :
    alphabeticalTokensMatch a b = true ↔ a = b := by
  constructor
  · intro h
    induction a generalizing b with
    | nil =>
      cases b with
      | nil => rfl
      | cons y ys =>
        rw [alphabeticalTokensMatch, if_pos (by simp)] at h
        cases h
    | cons x xs ih =>
      cases b with
      | nil =>
        rw [alphabeticalTokensMatch, if_pos (by simp)] at h
        cases h
      | cons y ys =>
        rw [alphabeticalTokensMatch] at h
        by_cases hlen : (x :: xs).length ≠ (y :: ys).length
        · rw [if_pos hlen] at h
          cases h
        · rw [if_neg hlen] at h
          rw [List.zip_cons_cons, List.all_cons] at h
          obtain ⟨hxy, hall⟩ := Bool.and_eq_true_iff.mp h
          have hxy2 : x = y := by simpa using hxy
          have htl : xs = ys := by
            apply ih
            rw [alphabeticalTokensMatch, if_neg (by simp at hlen; omega)]
            exact hall
          rw [hxy2, htl]
  · rintro rfl
    exact alphabeticalTokensMatch_self a

theorem alphabeticalTokensMatch_comm (a b : List String) :
    alphabeticalTokensMatch a b = alphabeticalTokensMatch b a := by
  by_cases h : a = b
  · rw [h]
  · have h1 : alphabeticalTokensMatch a b = false := by
      rw [← Bool.not_eq_true, alphabeticalTokensMatch_iff]
      exact h
    have h2 : alphabeticalTokensMatch b a = false := by
      rw [← Bool.not_eq_true, alphabeticalTokensMatch_iff]
      exact fun heq => h heq.symm
    rw [h1, h2]

theorem calculateSimilarity_eq (cfg : Config) (e1 e2 : LogEvent) :
    calculateSimilarity cfg e1 e2 =
      if countAlphabeticalLetters e1 = 0 ∨ countAlphabeticalLetters e2 = 0 then 0
      else if cfg.StrictAlphabeticalMatching
          && !alphabeticalTokensMatch (getAlphabeticalTokens e1) (getAlphabeticalTokens e2)
        then 0
      else (min (countAlphabeticalLetters e1) (countAlphabeticalLetters e2) : ℚ)
        / (max (countAlphabeticalLetters e1) (countAlphabeticalLetters e2) : ℚ) := rfl

/-- C2: similarity lies in [0,1], is 0 when either event has no letters in
its alphabetical tokens (and, under strict alphabetical matching, when the
alphabetical token sequences differ), equals min/max of the letter counts
otherwise, and is symmetric in every configuration. -/
theorem claim_C2 (cfg : Config) (e1 e2 : LogEvent) :
    0 ≤ calculateSimilarity cfg e1 e2
  ∧ calculateSimilarity cfg e1 e2 ≤ 1
  ∧ calculateSimilarity cfg e1 e2 = calculateSimilarity cfg e2 e1
  ∧ (countAlphabeticalLetters e1 = 0 ∨ countAlphabeticalLetters e2 = 0 →
      calculateSimilarity cfg e1 e2 = 0)
  ∧ (cfg.StrictAlphabeticalMatching = true →
      getAlphabeticalTokens e1 ≠ getAlphabeticalTokens e2 →
      calculateSimilarity cfg e1 e2 = 0)
  ∧ (countAlphabeticalLetters e1 ≠ 0 → countAlphabeticalLetters e2 ≠ 0 →
      (cfg.StrictAlphabeticalMatching = true →
        getAlphabeticalTokens e1 = getAlphabeticalTokens e2) →
      calculateSimilarity cfg e1 e2
        = (min (countAlphabeticalLetters e1) (countAlphabeticalLetters e2) : ℚ)
          / (max (countAlphabeticalLetters e1) (countAlphabeticalLetters e2) : ℚ)) := by
  have hbounds : ∀ a b : LogEvent,
      0 ≤ calculateSimilarity cfg a b ∧ calculateSimilarity cfg a b ≤ 1 := by
    intro a b
    rw [calculateSimilarity_eq]
    split
    · norm_num
    · rename_i hzero
      split
      · norm_num
      · have ha : 0 < countAlphabeticalLetters a := by
          rcases Nat.eq_zero_or_pos (countAlphabeticalLetters a) with h | h
          · exact absurd (Or.inl h) hzero
          · exact h
        have hmax : (0 : ℚ) < (max (countAlphabeticalLetters a) (countAlphabeticalLetters b) : ℚ) := by
          have : 0 < max (countAlphabeticalLetters a) (countAlphabeticalLetters b) :=
            lt_of_lt_of_le ha (le_max_left _ _)
          exact_mod_cast this
        constructor
        · apply div_nonneg _ (le_of_lt hmax)
          positivity
        · rw [div_le_one hmax]
          exact_mod_cast min_le_max
  refine ⟨(hbounds e1 e2).1, (hbounds e1 e2).2, ?_, ?_, ?_, ?_⟩
  · by_cases hzero : countAlphabeticalLetters e1 = 0 ∨ countAlphabeticalLetters e2 = 0
    · rw [calculateSimilarity_eq, calculateSimilarity_eq, if_pos hzero, if_pos hzero.symm]
    · rw [calculateSimilarity_eq, calculateSimilarity_eq, if_neg hzero,
        if_neg (fun h => hzero (Or.symm h)),
        alphabeticalTokensMatch_comm (getAlphabeticalTokens e2) (getAlphabeticalTokens e1),
        min_comm ((countAlphabeticalLetters e2 : ℚ)) ((countAlphabeticalLetters e1 : ℚ)),
        max_comm ((countAlphabeticalLetters e2 : ℚ)) ((countAlphabeticalLetters e1 : ℚ))]
  · intro h
    rw [calculateSimilarity_eq, if_pos h]
  · intro hstrict hne
    rw [calculateSimilarity_eq]
    by_cases hzero : countAlphabeticalLetters e1 = 0 ∨ countAlphabeticalLetters e2 = 0
    · rw [if_pos hzero]
    · rw [if_neg hzero, if_pos]
      rw [hstrict]
      simp only [Bool.true_and, Bool.not_eq_true']
      rw [← Bool.not_eq_true, alphabeticalTokensMatch_iff]
      exact hne
  · intro h1 h2 hmatch
    rw [calculateSimilarity_eq, if_neg (by tauto), if_neg]
    cases hs : cfg.StrictAlphabeticalMatching with
    | false => simp
    | true =>
      rw [(alphabeticalTokensMatch_iff _ _).mpr (hmatch hs)]
      simp

/-! ### Spec-side threshold formulas (C3) -/

/-- The median of a count distribution as the claim words it: over the
ascending-sorted counts, the middle element on odd cardinality, the
(floored) average of the two middle elements on even cardinality. -/
def medianOfCounts (counts : List Nat) : Nat :=
  let s := counts.mergeSort (fun a b => a ≤ b)
  if s.length % 2 = 0 then (s.getD (s.length / 2 - 1) 0 + s.getD (s.length / 2) 0) / 2
  else s.getD (s.length / 2) 0

/-- The percentile threshold as the claim words it: the count at index
floor((cardinality - 1) × percentile) of the ascending-sorted counts. -/
def percentileOfCounts (p : ℚ) (counts : List Nat) : Nat :=
  let s := counts.mergeSort (fun a b => a ≤ b)
  s.getD ((⌊((s.length - 1 : ℕ) : ℚ) * p⌋).toNat) 0

/-- C3: for a non-empty frequency map, the median strategy yields the
median of the per-token count distribution (lower-middle average on even
cardinality), and the percentile strategy yields the count at index
floor((cardinality-1) × percentile) of the ascending-sorted counts. -/
theorem claim_C3 (cfg : Config) (frequency : List (String × Nat)) (groupSize : Nat) :
    (cfg.FreqThresholdStrategy = .freqMedian → frequency ≠ [] →
      chooseFreqThreshold cfg frequency groupSize
        = medianOfCounts (frequency.map (fun kv => kv.2)))
  ∧ (cfg.FreqThresholdStrategy = .freqPercentile → frequency ≠ [] →
      chooseFreqThreshold cfg frequency groupSize
        = percentileOfCounts cfg.FreqPercentile (frequency.map (fun kv => kv.2))) := by
  constructor
  · intro hstrat hne
    rw [chooseFreqThreshold, hstrat]
    dsimp only
    rw [if_neg hne]
    rfl
  · intro hstrat hne
    rw [chooseFreqThreshold, hstrat]
    dsimp only
    rw [if_neg hne]
    rfl

/-! ### C7: small groups with disabled small-group analysis -/

theorem sortIf_eq (cfg : Config) (l : List LogEvent) :
    (if cfg.SortingStrategy ≠ .sortNone then sortEventsInPattern cfg l else l)
      = sortEventsInPattern cfg l := by
  by_cases h : cfg.SortingStrategy = .sortNone
  · rw [if_neg (by simp [h]), sortEventsInPattern, h]
  · rw [if_pos h]

theorem frequencyAnalysisStep_small (cfg : Config) (p : Pattern)
    (hne : p.Events ≠ [])
    (hsize : (p.Events.length : ℤ) < cfg.MinGroupSize)
    (hsmall : cfg.ApplyFreqAnalysisToSmallGroups = false) :
    frequencyAnalysisStep cfg p =
      { p with Events := sortEventsInPattern cfg p.Events,
               Template := ((sortEventsInPattern cfg p.Events).headD default).Content } := by
  rw [frequencyAnalysisStep, if_neg hne, if_pos (by simp [hsize, hsmall])]
  rw [sortIf_eq]

theorem eventTemplate_cons_self {p : Pattern} {e : LogEvent} (he : e ∈ p.Events)
    (ps : List Pattern) : eventTemplate (p :: ps) e = p.Template := by
  have hpos : (p.Events.any fun e2 => decide (e2.idx = e.idx)) = true :=
    List.any_eq_true.mpr ⟨e, he, by simp⟩
  rw [eventTemplate, List.find?_cons, hpos]

/-- C7: a pattern smaller than the configured minimum group size, when
small-group analysis is disabled, skips frequency classification: its
template is the representative (post-sort first) event's preprocessed
content verbatim, the frequency map is left untouched, and every event of
the pattern is assigned that template. -/
theorem claim_C7 (cfg : Config) (p : Pattern)
    (hne : p.Events ≠ [])
    (hsize : (p.Events.length : ℤ) < cfg.MinGroupSize)
    (hsmall : cfg.ApplyFreqAnalysisToSmallGroups = false) :
    (frequencyAnalysisStep cfg p).Template
        = ((sortEventsInPattern cfg p.Events).headD default).Content
  ∧ (frequencyAnalysisStep cfg p).Events = sortEventsInPattern cfg p.Events
  ∧ (frequencyAnalysisStep cfg p).Frequency = p.Frequency
  ∧ frequencyAnalysis cfg [p] = [frequencyAnalysisStep cfg p]
  ∧ (∀ e ∈ (frequencyAnalysisStep cfg p).Events,
      eventTemplate (frequencyAnalysis cfg [p]) e
        = ((sortEventsInPattern cfg p.Events).headD default).Content) := by
  rw [frequencyAnalysisStep_small cfg p hne hsize hsmall]
  refine ⟨rfl, rfl, rfl, ?_, ?_⟩
  · rw [show frequencyAnalysis cfg [p] = [frequencyAnalysisStep cfg p] from rfl,
      frequencyAnalysisStep_small cfg p hne hsize hsmall]
  · intro e he
    rw [show frequencyAnalysis cfg [p] = [frequencyAnalysisStep cfg p] from rfl,
      frequencyAnalysisStep_small cfg p hne hsize hsmall,
      eventTemplate_cons_self he]

/-- A configuration with minimum group size 2 and small-group analysis
disabled, for the C7 witness. -/
def smallCfg : Config :=
  { defaultConfig with MinGroupSize := 2, ApplyFreqAnalysisToSmallGroups := false }

/-- A preprocessed event whose content has a double space (so that its
content differs from any re-join of its tokens), for the C7 witness. -/
def smallEvent : LogEvent := { idx := 0, Raw := "a  b", Content := "a  b", Tokens := ["a", "b"] }

/-- A singleton pattern, for the C7 witness. -/
def smallPattern : Pattern := { ID := 0, Events := [smallEvent], Template := "", Frequency := [] }

/-- C7 witness: a singleton pattern under minimum group size 2 with
small-group analysis disabled takes its event's preprocessed content as its
template. -/
theorem claim_C7_witness :
    (frequencyAnalysisStep smallCfg smallPattern).Template
        = ((sortEventsInPattern smallCfg smallPattern.Events).headD default).Content
  ∧ (frequencyAnalysisStep smallCfg smallPattern).Events
        = sortEventsInPattern smallCfg smallPattern.Events
  ∧ (frequencyAnalysisStep smallCfg smallPattern).Frequency = smallPattern.Frequency
  ∧ frequencyAnalysis smallCfg [smallPattern] = [frequencyAnalysisStep smallCfg smallPattern]
  ∧ (∀ e ∈ (frequencyAnalysisStep smallCfg smallPattern).Events,
      eventTemplate (frequencyAnalysis smallCfg [smallPattern]) e
        = ((sortEventsInPattern smallCfg smallPattern.Events).headD default).Content) :=
  claim_C7 smallCfg smallPattern (by decide) (by decide) (by decide)

/-! ### C4: the placeholder-ratio guard -/

theorem template_mk (a : Nat) (E : List LogEvent) (T : String) (F : List (String × Nat)) :
    (Pattern.mk a E T F).Template = T := rfl

theorem bool_ne_true {b : Bool} (h : b = false) : ¬(b = true) := by
  rw [h]
  simp

theorem frequencyAnalysisStep_large (cfg : Config) (p : Pattern)
    (hne : p.Events ≠ [])
    (hbig : ¬((p.Events.length : ℤ) < cfg.MinGroupSize
      ∧ cfg.ApplyFreqAnalysisToSmallGroups = false)) :
    frequencyAnalysisStep cfg p =
      { p with
        Events := sortEventsInPattern cfg p.Events,
        Frequency := countFrequency (sortEventsInPattern cfg p.Events),
        Template :=
          if hasExcessivePlaceholders cfg
              (generateTemplate ((sortEventsInPattern cfg p.Events).headD default)
                (countFrequency (sortEventsInPattern cfg p.Events))
                (chooseFreqThreshold cfg (countFrequency (sortEventsInPattern cfg p.Events))
                  (sortEventsInPattern cfg p.Events).length))
          then ((sortEventsInPattern cfg p.Events).headD default).Content
          else generateTemplate ((sortEventsInPattern cfg p.Events).headD default)
            (countFrequency (sortEventsInPattern cfg p.Events))
            (chooseFreqThreshold cfg (countFrequency (sortEventsInPattern cfg p.Events))
              (sortEventsInPattern cfg p.Events).length) } := by
  have hcond : (decide ((p.Events.length : ℤ) < cfg.MinGroupSize)
      && !cfg.ApplyFreqAnalysisToSmallGroups) = false := by
    by_cases hA : (p.Events.length : ℤ) < cfg.MinGroupSize
    · have hB : cfg.ApplyFreqAnalysisToSmallGroups = true := by
        cases h : cfg.ApplyFreqAnalysisToSmallGroups
        · exact absurd ⟨hA, h⟩ hbig
        · rfl
      simp [hB]
    · simp [hA]
  rw [frequencyAnalysisStep, if_neg hne, if_neg (by simp [hcond])]
  rw [sortIf_eq]

/-- C4 (amended): at synthesis time the guard holds — when the synthesized
candidate template exceeds the configured maximum placeholder ratio it is
discarded and the representative event's (substituted) content becomes the
template; when it does not exceed the ratio, it is kept and the pattern's
template passes the ratio check. -/
theorem claim_C4 (cfg : Config) (p : Pattern)
    (hne : p.Events ≠ [])
    (hbig : ¬((p.Events.length : ℤ) < cfg.MinGroupSize
      ∧ cfg.ApplyFreqAnalysisToSmallGroups = false)) :
    (hasExcessivePlaceholders cfg
        (generateTemplate ((sortEventsInPattern cfg p.Events).headD default)
          (countFrequency (sortEventsInPattern cfg p.Events))
          (chooseFreqThreshold cfg (countFrequency (sortEventsInPattern cfg p.Events))
            (sortEventsInPattern cfg p.Events).length)) = true →
      (frequencyAnalysisStep cfg p).Template
        = ((sortEventsInPattern cfg p.Events).headD default).Content)
  ∧ (hasExcessivePlaceholders cfg
        (generateTemplate ((sortEventsInPattern cfg p.Events).headD default)
          (countFrequency (sortEventsInPattern cfg p.Events))
          (chooseFreqThreshold cfg (countFrequency (sortEventsInPattern cfg p.Events))
            (sortEventsInPattern cfg p.Events).length)) = false →
      (frequencyAnalysisStep cfg p).Template
          = generateTemplate ((sortEventsInPattern cfg p.Events).headD default)
            (countFrequency (sortEventsInPattern cfg p.Events))
            (chooseFreqThreshold cfg (countFrequency (sortEventsInPattern cfg p.Events))
              (sortEventsInPattern cfg p.Events).length)
        ∧ hasExcessivePlaceholders cfg (frequencyAnalysisStep cfg p).Template = false) := by
  by_cases hc : hasExcessivePlaceholders cfg
      (generateTemplate ((sortEventsInPattern cfg p.Events).headD default)
        (countFrequency (sortEventsInPattern cfg p.Events))
        (chooseFreqThreshold cfg (countFrequency (sortEventsInPattern cfg p.Events))
          (sortEventsInPattern cfg p.Events).length)) = true
  · refine ⟨fun _ => ?_, fun hfalse => absurd hc (bool_ne_true hfalse)⟩
    rw [frequencyAnalysisStep_large cfg p hne hbig, template_mk, if_pos hc]
  · have hc2 : hasExcessivePlaceholders cfg
        (generateTemplate ((sortEventsInPattern cfg p.Events).headD default)
          (countFrequency (sortEventsInPattern cfg p.Events))
          (chooseFreqThreshold cfg (countFrequency (sortEventsInPattern cfg p.Events))
            (sortEventsInPattern cfg p.Events).length)) = false := by
      cases hx : hasExcessivePlaceholders cfg
          (generateTemplate ((sortEventsInPattern cfg p.Events).headD default)
            (countFrequency (sortEventsInPattern cfg p.Events))
            (chooseFreqThreshold cfg (countFrequency (sortEventsInPattern cfg p.Events))
              (sortEventsInPattern cfg p.Events).length)) with
      | false => rfl
      | true => exact absurd hx hc
    refine ⟨fun htrue => absurd htrue hc, fun _ => ⟨?_, ?_⟩⟩
    · rw [frequencyAnalysisStep_large cfg p hne hbig, template_mk, if_neg hc]
    · rw [frequencyAnalysisStep_large cfg p hne hbig, template_mk, if_neg hc]
      exact hc2

/-- The configuration of the C4 counterexample: maximum placeholder ratio
3/10 and the all-events frequency strategy. -/
def guardCfg : Config :=
  { defaultConfig with MaxPlaceholderShare := 3 / 10, FreqThresholdStrategy := .freqAll }

/-- The first event of the C4 witness pattern. -/
def guardEvent1 : LogEvent :=
  { idx := 0, Raw := "alpha 1", Content := "alpha 1", Tokens := ["alpha", "1"] }

/-- The second event of the C4 witness pattern. -/
def guardEvent2 : LogEvent :=
  { idx := 1, Raw := "alpha 2", Content := "alpha 2", Tokens := ["alpha", "2"] }

/-- The two-event pattern of the C4 witness. -/
def guardPattern : Pattern :=
  { ID := 0, Events := [guardEvent1, guardEvent2], Template := "", Frequency := [] }

/-- C4 witness: on the two-event pattern the synthesized candidate
`alpha <*>` exceeds the ratio 3/10, so the template falls back to the
representative's content. -/
theorem claim_C4_witness :
    (hasExcessivePlaceholders guardCfg
        (generateTemplate ((sortEventsInPattern guardCfg guardPattern.Events).headD default)
          (countFrequency (sortEventsInPattern guardCfg guardPattern.Events))
          (chooseFreqThreshold guardCfg
            (countFrequency (sortEventsInPattern guardCfg guardPattern.Events))
            (sortEventsInPattern guardCfg guardPattern.Events).length)) = true →
      (frequencyAnalysisStep guardCfg guardPattern).Template
        = ((sortEventsInPattern guardCfg guardPattern.Events).headD default).Content)
  ∧ (hasExcessivePlaceholders guardCfg
        (generateTemplate ((sortEventsInPattern guardCfg guardPattern.Events).headD default)
          (countFrequency (sortEventsInPattern guardCfg guardPattern.Events))
          (chooseFreqThreshold guardCfg
            (countFrequency (sortEventsInPattern guardCfg guardPattern.Events))
            (sortEventsInPattern guardCfg guardPattern.Events).length)) = false →
      (frequencyAnalysisStep guardCfg guardPattern).Template
          = generateTemplate ((sortEventsInPattern guardCfg guardPattern.Events).headD default)
            (countFrequency (sortEventsInPattern guardCfg guardPattern.Events))
            (chooseFreqThreshold guardCfg
              (countFrequency (sortEventsInPattern guardCfg guardPattern.Events))
              (sortEventsInPattern guardCfg guardPattern.Events).length)
        ∧ hasExcessivePlaceholders guardCfg
            (frequencyAnalysisStep guardCfg guardPattern).Template = false) :=
  claim_C4 guardCfg guardPattern (by decide) (by decide)

/-- C4 counterexample: the returned mapping of Parse and the template set
of GetTemplates contain the template `alpha <*>`, whose placeholder ratio
1/2 exceeds the configured maximum 3/10 — the guard is bypassed because
the fallback content is rechecked by nothing once the numeric cleanup pass
has replaced the trailing number. -/
theorem claim_C4_cex :
    (Parse id guardCfg ["alpha 1", "alpha 2"]).lookup "alpha 1" = some "alpha <*>"
  ∧ hasExcessivePlaceholders guardCfg "alpha <*>" = true
  ∧ "alpha <*>" ∈ GetTemplates guardCfg (parsePatterns id guardCfg ["alpha 1", "alpha 2"]) := by
  refine ⟨by decide, by decide, ?_⟩
  rw [GetTemplates, List.mem_mergeSort]
  decide

/-! ### C6: configuration validation -/

theorem withConfig_eq (compileOk : String → Bool) (lp : AWSOMLP) (config : Config) :
    withConfig compileOk lp config =
      match validateErr (fillDefaults config) with
      | some e => (lp, some e)
      | none =>
        if !compileOk (fillDefaults config).HeaderRegex then (lp, some "invalid HeaderRegex")
        else
          match compileCustoms compileOk
              { lp with headerRegex := some (fillDefaults config).HeaderRegex,
                        customRegexes := [] }
              (fillDefaults config).CustomRegexes with
          | (lp2, some e) => (lp2, some e)
          | (lp2, none) => ({ lp2 with config := fillDefaults config }, none) := rfl

theorem compileCustoms_keeps (compileOk : String → Bool) :
    ∀ (rs : List String) (lp : AWSOMLP),
      (compileCustoms compileOk lp rs).1.config = lp.config
      ∧ (compileCustoms compileOk lp rs).1.patterns = lp.patterns := by
  intro rs
  induction rs with
  | nil => exact fun lp => ⟨rfl, rfl⟩
  | cons r rest ih =>
    intro lp
    rw [compileCustoms]
    by_cases hr : compileOk r = true
    · rw [if_pos hr]
      exact ih _
    · rw [if_neg hr]
      exact ⟨rfl, rfl⟩

theorem string_append_ne_empty (a b : String) (ha : a ≠ "") : a ++ b ≠ "" := by
  intro h
  apply ha
  apply String.ext
  have hd : (a ++ b).data = a.data ++ b.data := rfl
  have h2 : a.data ++ b.data = [] := by
    rw [← hd, h]
  rcases List.append_eq_nil.mp h2 with ⟨h3, _⟩
  rw [h3]

theorem compileCustoms_err_ne (compileOk : String → Bool) :
    ∀ (rs : List String) (lp : AWSOMLP) (e : String),
      (compileCustoms compileOk lp rs).2 = some e → e ≠ "" := by
  intro rs
  induction rs with
  | nil =>
    intro lp e h
    cases h
  | cons r rest ih =>
    intro lp e h
    rw [compileCustoms] at h
    by_cases hr : compileOk r = true
    · rw [if_pos hr] at h
      exact ih _ e h
    · rw [if_neg hr] at h
      have he : "invalid custom regex pattern " ++ r = e := Option.some.inj h
      rw [← he]
      exact string_append_ne_empty _ _ (by decide)

theorem validateErr_ne (c : Config) (e : String) (h : validateErr c = some e) : e ≠ "" := by
  rw [validateErr] at h
  split at h
  · rw [← Option.some.inj h]
    decide
  · split at h
    · rw [← Option.some.inj h]
      decide
    · split at h
      · rw [← Option.some.inj h]
        decide
      · split at h
        · rw [← Option.some.inj h]
          decide
        · split at h
          · rw [← Option.some.inj h]
            decide
          · cases h

/-- C6 (amended): WithConfig validates the default-filled configuration
before parsing; an out-of-range numeric parameter, and a header regex that
fails to compile, reject the configuration with a descriptive (non-empty)
error and leave the engine entirely unchanged; on any error the installed
configuration and pattern state are unchanged (although a failing custom
regex is detected only after the compiled header regex and custom regex
list have been overwritten); on success the default-filled configuration
is installed. -/
theorem claim_C6 (compileOk : String → Bool) (lp : AWSOMLP) (config : Config) :
    (∀ e, validateErr (fillDefaults config) = some e →
        withConfig compileOk lp config = (lp, some e) ∧ e ≠ "")
  ∧ (validateErr (fillDefaults config) = none →
      compileOk (fillDefaults config).HeaderRegex = false →
      withConfig compileOk lp config = (lp, some "invalid HeaderRegex"))
  ∧ (∀ e, (withConfig compileOk lp config).2 = some e → e ≠ "")
  ∧ ((withConfig compileOk lp config).2 ≠ none →
      (withConfig compileOk lp config).1.config = lp.config
      ∧ (withConfig compileOk lp config).1.patterns = lp.patterns)
  ∧ ((withConfig compileOk lp config).2 = none →
      (withConfig compileOk lp config).1.config = fillDefaults config) := by
  rw [withConfig_eq]
  cases hv : validateErr (fillDefaults config) with
  | some e0 =>
    refine ⟨?_, ?_, ?_, ?_, ?_⟩
    · intro e he
      have he2 : e0 = e := Option.some.inj he
      subst he2
      exact ⟨rfl, validateErr_ne _ _ hv⟩
    · intro hnone
      exact Option.noConfusion hnone
    · intro e he
      have he2 : e0 = e := Option.some.inj he
      rw [← he2]
      exact validateErr_ne _ _ hv
    · intro _
      exact ⟨rfl, rfl⟩
    · intro h
      exact Option.noConfusion h
  | none =>
    by_cases hh : compileOk (fillDefaults config).HeaderRegex = true
    · rw [if_neg (by simp [hh])]
      cases hcc : compileCustoms compileOk
          { lp with headerRegex := some (fillDefaults config).HeaderRegex,
                    customRegexes := [] }
          (fillDefaults config).CustomRegexes with
      | mk lp2 err =>
        cases err with
        | some e0 =>
          refine ⟨?_, ?_, ?_, ?_, ?_⟩
          · intro e he
            exact Option.noConfusion he
          · intro _ hfalse
            rw [hh] at hfalse
            exact Bool.noConfusion hfalse
          · intro e he
            have he2 : e0 = e := Option.some.inj he
            rw [← he2]
            exact compileCustoms_err_ne compileOk _ _ e0 (by rw [hcc])
          · intro _
            have hk := compileCustoms_keeps compileOk (fillDefaults config).CustomRegexes
              { lp with headerRegex := some (fillDefaults config).HeaderRegex,
                        customRegexes := [] }
            rw [hcc] at hk
            exact hk
          · intro h
            exact Option.noConfusion h
        | none =>
          refine ⟨?_, ?_, ?_, ?_, ?_⟩
          · intro e he
            exact Option.noConfusion he
          · intro _ hfalse
            rw [hh] at hfalse
            exact Bool.noConfusion hfalse
          · intro e he
            exact Option.noConfusion he
          · intro h
            exact absurd rfl h
          · intro _
            rfl
    · have hh2 : compileOk (fillDefaults config).HeaderRegex = false := by
        cases hx : compileOk (fillDefaults config).HeaderRegex
        · rfl
        · exact absurd hx hh
      rw [if_pos (by simp [hh2])]
      refine ⟨?_, ?_, ?_, ?_, ?_⟩
      · intro e he
        exact Option.noConfusion he
      · intro _ _
        rfl
      · intro e he
        rw [← Option.some.inj he]
        decide
      · intro _
        exact ⟨rfl, rfl⟩
      · intro h
        exact Option.noConfusion h

/-- The engine state before the failing reconfiguration of the C6
counterexample: an installed header regex and one installed custom
regex. -/
def oldEngine : AWSOMLP :=
  { patterns := [], headerRegex := some "^old$", customRegexes := ["old"],
    config := defaultConfig }

/-- The compile model of the C6 counterexample: Go regexp.Compile fails on
the pattern `(` (missing closing parenthesis) and succeeds on the other
patterns involved. -/
def badCompile : String → Bool := fun s => !(s == "(")

/-- The configuration of the C6 counterexample: defaults except for one
malformed custom regex. -/
def badConfig : Config := { defaultConfig with CustomRegexes := ["("] }

/-- C6 counterexample: reconfiguring with a malformed custom regex returns
an error, yet the engine's previously compiled header regex and custom
regex list are clobbered — against the claim that the whole previous
configuration is left unchanged on any configuration error. -/
theorem claim_C6_cex :
    (withConfig badCompile oldEngine badConfig).2 ≠ none
  ∧ (withConfig badCompile oldEngine badConfig).1.headerRegex ≠ oldEngine.headerRegex
  ∧ (withConfig badCompile oldEngine badConfig).1.customRegexes ≠ oldEngine.customRegexes := by
  refine ⟨by decide, by decide, by decide⟩

/-! ### C8: the numeric cleanup pass is not idempotent -/

theorem test_digitOnly {cc : CClass} {ch : Char} (hd : cc.digitOnly = true)
    (ht : cc.test ch = true) : ch.isDigit = true := by
  cases cc with
  | digit => exact ht
  | chr c0 =>
    have : ch = c0 := by simpa [CClass.test] using ht
    rw [this]
    exact hd
  | ws => exact Bool.noConfusion hd
  | hexd => exact Bool.noConfusion hd
  | alpha => exact Bool.noConfusion hd
  | ee => exact Bool.noConfusion hd
  | sign => exact Bool.noConfusion hd
  | xX => exact Bool.noConfusion hd

theorem reMatch_sublist {r : RE} : ∀ {l rest : List Char},
    reMatch r l = some rest → rest.Sublist l := by
  induction r with
  | eps =>
    intro l rest h
    rw [reMatch] at h
    rw [← Option.some.inj h]
  | cls cc =>
    intro l rest h
    cases l with
    | nil => exact Option.noConfusion h
    | cons c tail =>
      rw [reMatch] at h
      split at h
      · rw [← Option.some.inj h]
        exact List.sublist_cons_self c tail
      · exact Option.noConfusion h
  | plus cc =>
    intro l rest h
    cases l with
    | nil => exact Option.noConfusion h
    | cons c tail =>
      rw [reMatch] at h
      split at h
      · rw [← Option.some.inj h]
        exact (List.dropWhile_sublist _).trans (List.sublist_cons_self c tail)
      · exact Option.noConfusion h
  | opt r ih =>
    intro l rest h
    rw [reMatch] at h
    cases hm : reMatch r l with
    | some mid =>
      rw [hm] at h
      rw [← Option.some.inj h]
      exact ih hm
    | none =>
      rw [hm] at h
      rw [← Option.some.inj h]
  | cat a b iha ihb =>
    intro l rest h
    rw [reMatch] at h
    cases hm : reMatch a l with
    | none =>
      rw [hm] at h
      exact Option.noConfusion h
    | some mid =>
      rw [hm] at h
      exact (ihb h).trans (iha hm)

theorem reMatch_digit {r : RE} : ∀ {l rest : List Char}, requiresDigit r = true →
    reMatch r l = some rest → ∃ c ∈ l, c.isDigit = true := by
  induction r with
  | eps =>
    intro l rest hr
    exact Bool.noConfusion hr
  | cls cc =>
    intro l rest hr h
    cases l with
    | nil => exact Option.noConfusion h
    | cons c tail =>
      rw [reMatch] at h
      split at h
      · rename_i ht
        exact ⟨c, List.mem_cons_self _ _, test_digitOnly hr ht⟩
      · exact Option.noConfusion h
  | plus cc =>
    intro l rest hr h
    cases l with
    | nil => exact Option.noConfusion h
    | cons c tail =>
      rw [reMatch] at h
      split at h
      · rename_i ht
        exact ⟨c, List.mem_cons_self _ _, test_digitOnly hr ht⟩
      · exact Option.noConfusion h
  | opt r ih =>
    intro l rest hr
    exact Bool.noConfusion hr
  | cat a b iha ihb =>
    intro l rest hr h
    rw [reMatch] at h
    cases hm : reMatch a l with
    | none =>
      rw [hm] at h
      exact Option.noConfusion h
    | some mid =>
      rw [hm] at h
      rcases Bool.or_eq_true_iff.mp (by simpa [requiresDigit] using hr) with ha | hb
      · exact iha ha hm
      · obtain ⟨c, hcmem, hcd⟩ := ihb hb h
        exact ⟨c, (reMatch_sublist hm).mem hcmem, hcd⟩

theorem scanRA_no_digit {body : RE} {anchEnd : Bool} {f : List Char → List Char}
    (hreq : requiresDigit body = true) :
    ∀ (fuel : Nat) (l : List Char), (∀ c ∈ l, c.isDigit = false) →
      scanRA body anchEnd f fuel l = l := by
  intro fuel
  induction fuel with
  | zero =>
    intro l _
    cases l with
    | nil => rfl
    | cons c rest => rfl
  | succ n ih =>
    intro l hfree
    cases l with
    | nil => rfl
    | cons c rest =>
      cases hm : reMatch body (c :: rest) with
      | none =>
        rw [scanRA, hm]
        rw [ih rest (fun x hx => hfree x (List.mem_cons_of_mem _ hx))]
      | some rem =>
        obtain ⟨d, hdmem, hdd⟩ := reMatch_digit hreq hm
        rw [hfree d hdmem] at hdd
        exact Bool.noConfusion hdd

theorem replaceAllNum_no_digit {p : NumPat} {f : List Char → List Char} {l : List Char}
    (hreq : requiresDigit p.body = true) (hfree : ∀ c ∈ l, c.isDigit = false) :
    replaceAllNum p f l = l := by
  rw [replaceAllNum]
  split
  · cases hm : reMatch p.body l with
    | none => rfl
    | some rem =>
      obtain ⟨d, hdmem, hdd⟩ := reMatch_digit hreq hm
      rw [hfree d hdmem] at hdd
      exact Bool.noConfusion hdd
  · exact scanRA_no_digit hreq l.length l hfree

theorem foldPatterns_no_digit :
    ∀ (ps : List NumPat) (l : List Char), (∀ p ∈ ps, requiresDigit p.body = true) →
      (∀ c ∈ l, c.isDigit = false) →
      ps.foldl (fun l p => replaceAllNum p numericReplacement l) l = l := by
  intro ps
  induction ps with
  | nil =>
    intro l _ _
    rfl
  | cons p rest ih =>
    intro l hreq hfree
    rw [List.foldl_cons,
      replaceAllNum_no_digit (hreq p (List.mem_cons_self _ _)) hfree]
    exact ih l (fun q hq => hreq q (List.mem_cons_of_mem _ hq)) hfree

theorem numericalPatterns_require_digit :
    ∀ p ∈ numericalPatterns, requiresDigit p.body = true := by
  decide

/-- Every numerical pattern needs a digit to match, so the cleanup pass is
the identity on a digit-free template. -/
theorem cleanupTemplate_no_digit (s : String)
    (h : s.data.all (fun c => !c.isDigit) = true) : cleanupTemplate s = s := by
  rw [cleanupTemplate]
  rw [foldPatterns_no_digit numericalPatterns s.data numericalPatterns_require_digit]
  intro c hc
  have := List.all_eq_true.mp h c hc
  simpa using this

/-- C8 (amended): the numeric cleanup pass is a no-op on any digit-free
template; in particular it is idempotent on every template whose one-pass
cleanup removes all digits.  Unrestricted idempotence fails (see the
counterexample): adjacent numeric fields separated by a single space can
survive one pass and be replaced by the next. -/
theorem claim_C8 (t : String)
    (h : (cleanupTemplate t).data.all (fun c => !c.isDigit) = true) :
    cleanupTemplate (cleanupTemplate t) = cleanupTemplate t :=
  cleanupTemplate_no_digit (cleanupTemplate t) h

/-- C8 witness: a template already free of digits. -/
theorem claim_C8_witness :
    (cleanupTemplate "a <*> b").data.all (fun c => !c.isDigit) = true
  ∧ cleanupTemplate (cleanupTemplate "a <*> b") = cleanupTemplate "a <*> b" :=
  ⟨by decide, claim_C8 "a <*> b" (by decide)⟩

/-- C8 counterexample: on `a 1.5 2.5 3.5 b` one pass of the cleanup leaves
`a <*> 2.5 <*> b` — the float pattern consumes the space on either side of
its match, so the middle number is skipped by non-overlapping matching —
and a second pass replaces the survivor, so the pass is not idempotent. -/
theorem claim_C8_cex :
    cleanupTemplate (cleanupTemplate "a 1.5 2.5 3.5 b")
      ≠ cleanupTemplate "a 1.5 2.5 3.5 b" := by
  decide

end AwsomLP
